import Mathlib

/-!
Verification of the cutoff-table parsing core of the Nsquire repository.

The development shallowly embeds the parsing pipeline of `pdf_parser.py`
(class `EnhancedCollegeParser`) and `pdf_to_sql_migrator.py`
(class `PDFToSQLMigrator`).  Strings are modelled as `List Char` (the
inputs are ASCII); Python regular-expression primitives are modelled by
executable scanners whose comments explain the correspondence with the
regex each one transcribes; Python `float` values are modelled as exact
rationals (`ℚ`), which is adequate for the range and equality properties
proved here.
-/

namespace Nsquire

/-! ## Character classes -/

/-- Python whitespace as stripped by `str.strip()` (ASCII subset). -/
def pySpace (c : Char) : Bool :=
  c = ' ' || c = '\t' || c = '\n' || c = '\x0d' || c = '\x0b' || c = '\x0c'

/-- A regex word character (`\w` ≈ `[A-Za-z0-9_]`; inputs are ASCII). -/
def wordChar (c : Char) : Bool :=
  c.isAlpha || c.isDigit || c = '_'

/-- A character of the stage class `[IVX]`. -/
def ivxChar (c : Char) : Bool :=
  c = 'I' || c = 'V' || c = 'X'

/-- A character matched by `[\d.]` inside the percentage pattern. -/
def percChar (c : Char) : Bool :=
  c.isDigit || c = '.'

/-! ## String primitives -/

/-- Python `str.strip()`: drop leading and trailing whitespace. -/
def pyStrip (s : List Char) : List Char :=
  ((s.dropWhile pySpace).reverse.dropWhile pySpace).reverse

/-- Python `text.split('\n')`. -/
def splitLines : List Char → List (List Char)
  | [] => [[]]
  | c :: rest =>
    if c = '\n' then [] :: splitLines rest
    else
      match splitLines rest with
      | l :: ls => (c :: l) :: ls
      | [] => [[c]]

/-- `s` starts with `t`. -/
def startsWithL : List Char → List Char → Bool
  | _, [] => true
  | [], _ :: _ => false
  | c :: s, d :: t => c = d && startsWithL s t

/-- Python substring containment `t in s` (here: `containsL s t`). -/
def containsL : List Char → List Char → Bool
  | [], t => t.isEmpty
  | s@(_ :: s'), t => startsWithL s t || containsL s' t

/-- Python `'\n'.join(lines)`. -/
def joinLines : List (List Char) → List Char
  | [] => []
  | [l] => l
  | l :: l' :: ls => l ++ '\n' :: joinLines (l' :: ls)

/-- Python `int(...)` on a string of decimal digits. -/
def natOfDigits (s : List Char) : Nat :=
  s.foldl (fun n c => 10 * n + (c.toNat - 48)) 0

/-- Python `int(token)` succeeds (the tokens fed to it are digit strings). -/
def pyIntOk (s : List Char) : Bool :=
  !s.isEmpty && s.all Char.isDigit

/-- Python `float(token)` succeeds on a `[\d.]+` token: at most one dot
and at least one digit. -/
def pyFloatOk (s : List Char) : Bool :=
  s.count '.' ≤ 1 && s.any Char.isDigit

/-- The exact value of `float(token)` for a valid `[\d.]+` token, as a
rational: with integer part `ip` and fractional part `fp`, the value
`ip + fp / 10 ^ |fp|`, built with `mkRat` over a common denominator. -/
def ratOfToken (s : List Char) : ℚ :=
  let ip := s.takeWhile (fun c => c ≠ '.')
  let fp := (s.dropWhile (fun c => c ≠ '.')).tail
  mkRat (natOfDigits ip * 10 ^ fp.length + natOfDigits fp) (10 ^ fp.length)

/-! ## Regex scanners

`reFindAux cls lo hi prev s` models `re.findall` for a pattern of the
shape `\b<cls>{lo,hi}\b` (with `hi = none` meaning `+`, i.e. no upper
bound), scanning `s` left to right; `prev` is the character preceding
`s` in the whole line (`none` at the start).  A match at a position
requires a word boundary before it (previous character absent or not a
word character), the greedy class run starting there, and a word
boundary after the run: as the class characters are word characters, a
run followed by another word character admits no match of any length,
and a run of admissible length followed by a non-word character (or the
end) matches in full.  The scanner advances one character at a time;
this reproduces the regex engine's continue-after-match behaviour
because no new match can begin inside a completed run (every inner
position is preceded by a word character, so the leading `\b` fails
there). -/

/-- Word boundary holds before the current position. -/
def prevOk : Option Char → Bool
  | none => true
  | some c => !wordChar c

/-- Length is below the optional upper bound. -/
def hiOk (hi : Option Nat) (d : Nat) : Bool :=
  match hi with
  | none => true
  | some h => d ≤ h

/-- Word boundary holds after the run, i.e. before `after`. -/
def afterOk (after : List Char) : Bool :=
  match after.head? with
  | none => true
  | some d => !wordChar d

def reFindAux (cls : Char → Bool) (lo : Nat) (hi : Option Nat) :
    Option Char → List Char → List (List Char)
  | _, [] => []
  | prev, c :: rest =>
    if prevOk prev && cls c then
      let run := (c :: rest).takeWhile cls
      let after := (c :: rest).dropWhile cls
      if lo ≤ run.length && hiOk hi run.length && afterOk after then
        run :: reFindAux cls lo hi (some c) rest
      else
        reFindAux cls lo hi (some c) rest
    else
      reFindAux cls lo hi (some c) rest

/-- `re.findall(r'\b(\d{4,6})\b', line)`: standalone 4–6 digit runs. -/
def findRanks (line : List Char) : List (List Char) :=
  reFindAux Char.isDigit 4 (some 6) none line

/-- `re.findall(r'\b[A-Z]{4,6}\b', line)`: standalone 4–6 letter
all-uppercase runs. -/
def findCats (line : List Char) : List (List Char) :=
  reFindAux Char.isUpper 4 (some 6) none line

/-- `re.search(r'\b([IVX]+)(?:-Non\s+PWD)?\b', line)`, returning
`group(1)`.  The optional `-Non PWD` suffix never affects whether the
pattern matches nor the captured group: if the character after the
`[IVX]+` run is `-` the trailing `\b` already holds there, and if it is
a word character neither alternative can close the match. -/
def stageSearch (line : List Char) : Option (List Char) :=
  (reFindAux ivxChar 1 none none line).head?

/-- `re.findall(r'\(([\d.]+)\)', line)`: runs of digits and dots
enclosed in parentheses.  The scanner advances one character at a time;
this matches the engine's continue-after-match behaviour because a new
`(` cannot occur inside a completed match (its interior is digits and
dots). -/
def findPercs : List Char → List (List Char)
  | [] => []
  | c :: rest =>
    if c = '(' then
      let run := rest.takeWhile percChar
      if !run.isEmpty && (rest.dropWhile percChar).head? = some ')' then
        run :: findPercs rest
      else
        findPercs rest
    else
      findPercs rest

/-- `re.match(r'^\d{10}', line)` succeeds: at least ten leading digits. -/
def tenDigitStart (line : List Char) : Bool :=
  (line.take 10).length = 10 && (line.take 10).all Char.isDigit

/-! ## Rank–percentile pairing

`stage_data` is a list of slots `(rank?, percentage?)`, both string
tokens.  Loose ranks are appended as `(some rank, none)`.  Each
percentage is bound by the backward scan
`for k in range(len(stage_data)-1, -1, -1)`: the most recently added
slot with an empty percentage field receives it. -/

/-- One pairing slot of `stage_data`: `(rank, percentage)`, each
possibly `None`. -/
abbrev PairSlot := Option (List Char) × Option (List Char)

/-- The backward scan of the pairing loop.  Recursing into the tail
first realises "scan from the most recently added entry"; the result is
`none` exactly when no slot has an empty percentage field (the loop
falls through to its `else` clause). -/
def bindPercAux (l : List PairSlot) (p : List Char) : Option (List PairSlot) :=
  match l with
  | [] => none
  | e :: rest =>
    match bindPercAux rest p with
    | some rest' => some (e :: rest')
    | none =>
      if e.2 = none then some ((e.1, some p) :: rest) else none

/-- Processing one percentage in `extract_cutoff_data`
(`pdf_parser.py`): bind backwards, or append an orphan
`(None, percentage)` slot via the loop's `else` clause. -/
def percStepP (l : List PairSlot) (p : List Char) : List PairSlot :=
  match bindPercAux l p with
  | some l' => l'
  | none => l ++ [(none, some p)]

/-- Processing one percentage in `parse_cutoff_data`
(`pdf_to_sql_migrator.py`): bind backwards; an unbindable percentage is
discarded (the loop has no `else` clause there). -/
def percStepM (l : List PairSlot) (p : List Char) : List PairSlot :=
  match bindPercAux l p with
  | some l' => l'
  | none => l

/-- The rank slots appended for one scanned line:
`stage_data.extend([(rank, None) for rank in ranks])`. -/
def rankSlots (line : List Char) : List PairSlot :=
  (findRanks line).map (fun r => (some r, none))

/-- Processing one data line in `extract_cutoff_data`: all the line's
ranks are appended first, then its percentages are bound in order. -/
def collectLineP (sd : List PairSlot) (line : List Char) : List PairSlot :=
  (findPercs line).foldl percStepP (sd ++ rankSlots line)

/-- Processing one data line in `parse_cutoff_data`. -/
def collectLineM (sd : List PairSlot) (line : List Char) : List PairSlot :=
  (findPercs line).foldl percStepM (sd ++ rankSlots line)

/-! ## Stage-block collection -/

/-- Boundary test of the look-ahead loop in `parse_cutoff_data`
(`pdf_to_sql_migrator.py` lines 99–101): a stage token on a later line,
a `Status:` line, or a 10-digit branch header. -/
def boundaryM (nl : List Char) (later : Bool) : Bool :=
  ((stageSearch nl).isSome && later) ||
    containsL nl (("Status:").data) ||
    tenDigitStart nl

/-- Boundary test of the look-ahead loop in `extract_cutoff_data`
(`pdf_parser.py` lines 213–216): as `boundaryM`, plus any line
containing the literal substring `Stage`. -/
def boundaryP (nl : List Char) (later : Bool) : Bool :=
  ((stageSearch nl).isSome && later) ||
    containsL nl (("Status:").data) ||
    tenDigitStart nl ||
    containsL nl (("Stage").data)

/-- The look-ahead loop of `extract_cutoff_data`:
`for j in range(i, min(i + 20, len(lines)))`, skipping blank lines,
stopping at a boundary, and otherwise collecting the line's tokens.
The structural argument `fuel` counts the iterations left, i.e. the
loop runs for `j`, `j+1`, … while `fuel = stop - j` is positive. -/
def collectLoopP (lines : List (List Char)) (i : Nat) :
    Nat → Nat → List PairSlot → List PairSlot
  | 0, _, sd => sd
  | fuel + 1, j, sd =>
    let nl := pyStrip (lines.getD j [])
    if nl = [] then collectLoopP lines i fuel (j + 1) sd
    else if boundaryP nl (decide (i < j)) then sd
    else collectLoopP lines i fuel (j + 1) (collectLineP sd nl)

/-- The look-ahead loop of `parse_cutoff_data`. -/
def collectLoopM (lines : List (List Char)) (i : Nat) :
    Nat → Nat → List PairSlot → List PairSlot
  | 0, _, sd => sd
  | fuel + 1, j, sd =>
    let nl := pyStrip (lines.getD j [])
    if nl = [] then collectLoopM lines i fuel (j + 1) sd
    else if boundaryM nl (decide (i < j)) then sd
    else collectLoopM lines i fuel (j + 1) (collectLineM sd nl)

/-! ## Category assignment -/

/-- One cutoff record as built by both parsing variants. -/
structure CutoffRow where
  stage : List Char
  category : List Char
  rank : Nat
  percentage : ℚ
deriving DecidableEq, Repr

/-- The completeness filter
`[(rank, percentage) for rank, percentage in stage_data if rank and percentage]`:
both fields present and (Python truthiness) non-empty. -/
def completeOf (sd : List PairSlot) : List (List Char × List Char) :=
  sd.filterMap (fun e =>
    match e with
    | (some r, some p) => if !r.isEmpty && !p.isEmpty then some (r, p) else none
    | _ => none)

/-- Matching categories with complete pairs: the j-th pair gets the j-th
category code (`if j < len(categories)` — the zip truncates to the
shorter list; `extract_cutoff_data` breaks out of the loop there while
`parse_cutoff_data` keeps iterating without effect, which is the same).
A pair whose tokens fail numeric conversion is skipped
(`except ValueError: continue`). -/
def assignCore (stg : List Char) (cats : List (List Char))
    (complete : List (List Char × List Char)) : List CutoffRow :=
  (complete.zip cats).filterMap (fun rc =>
    if pyIntOk rc.1.1 && pyFloatOk rc.1.2 then
      some ⟨stg, rc.2, natOfDigits rc.1.1, ratOfToken rc.1.2⟩
    else none)

/-! ## The stage loop and the two section parsers -/

/-- Outer data-row loop of `extract_cutoff_data`
(`for i in range(categories_line_index + 1, len(lines))`): every line
with a stage token opens a stage block; the collected block is filtered
and assigned, and the rows are appended to the accumulator.  The
`if stage_data:` guard of the source is kept.
The structural argument `fuel` counts the remaining lines, i.e. the
loop visits `i`, `i+1`, … while `fuel = len(lines) - i` is positive;
the collection window for a stage found at `i` spans
`min(i + 20, len(lines)) - i` iterations. -/
def stageLoopP (lines : List (List Char)) (cats : List (List Char)) :
    Nat → Nat → List CutoffRow → List CutoffRow
  | 0, _, acc => acc
  | fuel + 1, i, acc =>
    let line := pyStrip (lines.getD i [])
    if line = [] then stageLoopP lines cats fuel (i + 1) acc
    else
      match stageSearch line with
      | none => stageLoopP lines cats fuel (i + 1) acc
      | some stg =>
        let sd := collectLoopP lines i (min (i + 20) lines.length - i) i []
        let rows := if sd = [] then [] else assignCore stg cats (completeOf sd)
        stageLoopP lines cats fuel (i + 1) (acc ++ rows)

/-- Outer data-row loop of `parse_cutoff_data` (no `if stage_data:`
guard; the empty list yields no rows anyway). -/
def stageLoopM (lines : List (List Char)) (cats : List (List Char)) :
    Nat → Nat → List CutoffRow → List CutoffRow
  | 0, _, acc => acc
  | fuel + 1, i, acc =>
    let line := pyStrip (lines.getD i [])
    if line = [] then stageLoopM lines cats fuel (i + 1) acc
    else
      match stageSearch line with
      | none => stageLoopM lines cats fuel (i + 1) acc
      | some stg =>
        let sd := collectLoopM lines i (min (i + 20) lines.length - i) i []
        stageLoopM lines cats fuel (i + 1) (acc ++ assignCore stg cats (completeOf sd))

/-- Index of the first line containing `State Level` (identical in both
source files). -/
def stateLevelIdxAux : List (List Char) → Nat → Option Nat
  | [], _ => none
  | l :: rest, i =>
    if containsL l (("State Level").data) then some i
    else stateLevelIdxAux rest (i + 1)

def stateLevelIdx (lines : List (List Char)) : Option Nat :=
  stateLevelIdxAux lines 0

/-- Category-row scan (identical in both source files): within the
window `range(sl + 1, min(sl + 5, len(lines)))`, the first non-blank
line whose `\b[A-Z]{4,6}\b` tokens number at least 3 supplies the
category list.  The structural argument `fuel` counts the remaining
window lines (`fuel = stop - i`). -/
def catScanLoop (lines : List (List Char)) :
    Nat → Nat → Option (Nat × List (List Char))
  | 0, _ => none
  | fuel + 1, i =>
    let l := pyStrip (lines.getD i [])
    if l = [] then catScanLoop lines fuel (i + 1)
    else
      let cs := findCats l
      if 3 ≤ cs.length then some (i, cs) else catScanLoop lines fuel (i + 1)

/-- `EnhancedCollegeParser.extract_cutoff_data` (`pdf_parser.py`
lines 142–274). -/
def extract_cutoff_data (sectionText : List Char) : List CutoffRow :=
  let lines := splitLines sectionText
  match stateLevelIdx lines with
  | none => []
  | some sl =>
    match catScanLoop lines (min (sl + 5) lines.length - (sl + 1)) (sl + 1) with
    | none => []
    | some (ci, cats) => stageLoopP lines cats (lines.length - (ci + 1)) (ci + 1) []

/-- `PDFToSQLMigrator.parse_cutoff_data` (`pdf_to_sql_migrator.py`
lines 46–135). -/
def parse_cutoff_data (sectionText : List Char) : List CutoffRow :=
  let lines := splitLines sectionText
  match stateLevelIdx lines with
  | none => []
  | some sl =>
    match catScanLoop lines (min (sl + 5) lines.length - (sl + 1)) (sl + 1) with
    | none => []
    | some (ci, cats) => stageLoopM lines cats (lines.length - (ci + 1)) (ci + 1) []

/-! ## College and branch segmentation (`pdf_parser.py` lines 44–140)

The branch header pattern `(\d{10})\s*-\s*(.+?)(?=\n|$)` is searched by
`re.finditer` / `re.search` over the (multi-line) college section; its
semantics are modelled faithfully, including the greedy backtracking of
the second `\s*` against the lazy `(.+?)` group: the engine first drops
the whole whitespace run, and if nothing (or only a newline) follows it
gives whitespace characters back one at a time, so that the group can
start on a space character. -/

/-- One candidate of `\s*(.+?)(?=\n|$)` after `k` whitespace characters
were consumed: the group is the rest of the current line, which must be
non-empty.  Returns the captured group and the text after the match. -/
def lazyCheckAt (r : List Char) (k : Nat) : Option (List Char × List Char) :=
  match r.drop k with
  | [] => none
  | c :: t =>
    if c = '\n' then none
    else some ((c :: t).takeWhile (fun x => x ≠ '\n'),
               (c :: t).dropWhile (fun x => x ≠ '\n'))

/-- Greedy backtracking over `\s*`: try consuming `k` whitespace
characters, then `k - 1`, … down to `0`. -/
def lazyTailAux (r : List Char) : Nat → Option (List Char × List Char)
  | 0 => lazyCheckAt r 0
  | k + 1 =>
    match lazyCheckAt r (k + 1) with
    | some res => some res
    | none => lazyTailAux r k

/-- `\s*(.+?)(?=\n|$)` applied at the start of `r`. -/
def lazyTail (r : List Char) : Option (List Char × List Char) :=
  lazyTailAux r (r.takeWhile pySpace).length

/-- Attempt the branch pattern at the start of `s`: ten digits, `\s*`,
a dash, then `\s*(.+?)(?=\n|$)`.  Returns the code, the raw name group
and the text after the match. -/
def tryBranchAt (s : List Char) : Option (List Char × List Char × List Char) :=
  let code := s.take 10
  if code.length = 10 && code.all Char.isDigit then
    match (s.drop 10).dropWhile pySpace with
    | '-' :: r3 => (lazyTail r3).map (fun nr => (code, nr.1, nr.2))
    | _ => none
  else none

/-- A branch-pattern match found by a leftmost scan. -/
structure BranchMatch where
  start : Nat
  code : List Char
  rawName : List Char
  after : List Char

/-- `re.search` of the branch pattern: leftmost position where the
pattern matches. -/
def branchSearch : List Char → Option BranchMatch
  | [] => none
  | s@(_ :: rest) =>
    match tryBranchAt s with
    | some cnr => some ⟨0, cnr.1, cnr.2.1, cnr.2.2⟩
    | none => (branchSearch rest).map (fun m => ⟨m.start + 1, m.code, m.rawName, m.after⟩)

/-- `re.search(r'Status:\s*(.+?)(?=\n|$)', s)`, returning `group(1)`:
leftmost occurrence of `Status:` whose tail also matches. -/
def statusSearch : List Char → Option (List Char)
  | [] => none
  | s@(_ :: rest) =>
    if startsWithL s (("Status:").data) then
      match lazyTail (s.drop 7) with
      | some nr => some nr.1
      | none => statusSearch rest
    else statusSearch rest

/-- One branch record (`branches.append({...})`, lines 127–132). -/
structure BranchRec where
  branch_code : List Char
  branch_name : List Char
  status : List Char
  cutoff_data : List CutoffRow
deriving DecidableEq, Repr

/-- The status of a branch section: the `Status:` group, stripped, or
`Unknown`. -/
def statusOf (branchSection : List Char) : List Char :=
  match statusSearch branchSection with
  | some st => pyStrip st
  | none => ("Unknown").data

/-- The `for match in branch_matches` loop of
`extract_branches_for_college`: each match's section runs from its end
to the start of the next match (found by `re.search` on the remaining
text, which coincides with the next `finditer` match) or to the end of
the college section.  `fuel` bounds the number of iterations; every
match consumes at least one character, so `s.length + 1` always
suffices. -/
def branchesLoop : Nat → List Char → List BranchRec
  | 0, _ => []
  | fuel + 1, s =>
    match branchSearch s with
    | none => []
    | some m =>
      let after := m.after
      let sectionEnd :=
        match branchSearch after with
        | some m2 => m2.start
        | none => after.length
      let branchSection := after.take sectionEnd
      { branch_code := m.code
        branch_name := pyStrip m.rawName
        status := statusOf branchSection
        cutoff_data := extract_cutoff_data branchSection } :: branchesLoop fuel after

/-- `EnhancedCollegeParser.extract_branches_for_college`. -/
def extract_branches_for_college (collegeSection : List Char) : List BranchRec :=
  branchesLoop (collegeSection.length + 1) collegeSection

/-- `re.match(r'^(\d{5})\s*-\s*(.+)$', line)` on a stripped line:
exactly five leading digits, optional spaces, a dash, optional spaces,
then a non-empty name running to the end of the line.  (On a stripped
line the name cannot be all whitespace, so dropping the spaces after
the dash is exact.) -/
def collegeMatch (s : List Char) : Option (List Char × List Char) :=
  let code := s.take 5
  if code.length = 5 && code.all Char.isDigit then
    match (s.drop 5).dropWhile pySpace with
    | '-' :: r =>
      let name := r.dropWhile pySpace
      if name = [] then none else some (code, name)
    | _ => none
  else none

/-- The college-header scan (`pdf_parser.py` lines 52–61): every line
whose stripped text matches the college pattern yields
`(line index, code, stripped name)`. -/
def collegeScan : Nat → List (List Char) → List (Nat × List Char × List Char)
  | _, [] => []
  | i, l :: rest =>
    match collegeMatch (pyStrip l) with
    | some cn => (i, cn.1, pyStrip cn.2) :: collegeScan (i + 1) rest
    | none => collegeScan (i + 1) rest

/-- One college record (`colleges.append({...})`, lines 83–88). -/
structure CollegeRec where
  college_code : List Char
  college_name : List Char
  branches : List BranchRec
  total_branches : Nat
deriving DecidableEq, Repr

/-- Building the college records: each header's section spans from its
line to the line before the next header (or the document end), joined
back with newlines. -/
def collegesBuild (lines : List (List Char)) :
    List (Nat × List Char × List Char) → List CollegeRec
  | [] => []
  | (i, code, name) :: rest =>
    let endLine :=
      match rest with
      | (i2, _, _) :: _ => i2
      | [] => lines.length
    let collegeSection := joinLines ((lines.drop i).take (endLine - i))
    let branches := extract_branches_for_college collegeSection
    { college_code := code
      college_name := name
      branches := branches
      total_branches := branches.length } :: collegesBuild lines rest

/-- `EnhancedCollegeParser.extract_colleges`. -/
def extract_colleges (text : List Char) : List CollegeRec :=
  let lines := splitLines text
  collegesBuild lines (collegeScan 0 lines)

/-- The result of `parse_pdf`: either a failure dictionary (an error
string and `parsing_success = False`, with no colleges key) or a
success dictionary with the colleges and the three totals. -/
inductive PdfResult where
  | failure (error : List Char)
  | success (colleges : List CollegeRec)
      (total_colleges total_branches total_cutoffs : Nat)
deriving DecidableEq, Repr

/-- `EnhancedCollegeParser.parse_pdf` (lines 276–307), taking the
already-extracted text (the PDF text source is an external
collaborator). -/
def parse_pdf (text : List Char) : PdfResult :=
  if text = [] then .failure (("Could not extract text from PDF").data)
  else
    let colleges := extract_colleges text
    if colleges = [] then .failure (("Could not extract any colleges from PDF").data)
    else
      .success colleges colleges.length
        ((colleges.map (fun c => c.total_branches)).sum)
        ((colleges.map (fun c =>
          ((c.branches.map (fun b => b.cutoff_data.length)).sum))).sum)

/-! ## Concrete documents and sections used to settle the claims -/

/-- The scenario document of spec §8. -/
def c1text : List Char :=
  ("01002 - Govt College, City\n0100219110 - Civil Engineering\nStatus: Government Autonomous\nState Level\nGOPENS GSCS\nI\n500 (90.1) 600 (85.3)\n").data

/-- The synthetic block of spec property P3, preceded by the `State
Level` anchor that `extract_cutoff_data` requires. -/
def c2section : List Char :=
  ("State Level\nGOPENS GSCS GNT3S\nI\n33717 (88.60) 40210 (85.12) 51090 (79.00)").data

/-- A branch section with a non-boundary data line containing the
literal substring `Stage`. -/
def c4section : List Char :=
  ("State Level\nGOPENS GSCS GNTS\nI\n1234 (50.0)\nStage\n2000 (60.0)").data

/-- A branch section whose only numeric token is parenthesized. -/
def c5section : List Char :=
  ("State Level\nGOPENS GSCS GNTS\nI\n(5000)").data

/-- A branch section with four complete pairs, three category codes,
and one percentage token that fails `float` conversion. -/
def c7section : List Char :=
  ("State Level\nGOPENS GSCS GNTS\nI\n1234 5678 9012 3456 (90.0) (91.0) (92.0) (1.2.3)").data

/-- A branch section whose rank token is `0000` and whose percentile
exceeds 100. -/
def c8section : List Char :=
  ("State Level\nGOPENS GSCS GNTS\nI\n0000 (150.5)").data

/-- A branch section whose 4-digit rank token has a leading zero. -/
def c9section : List Char :=
  ("State Level\nGOPENS GSCS GNTS\nI\n0500 (90.0)").data

/-- A branch section whose stage line is the non-roman word `IIXX`. -/
def c10section : List Char :=
  ("State Level\nGOPENS GSCS GNTS\nIIXX\n1234 (56.7)").data

/-! ## Token predicates used to state invariants -/

/-- A well-formed loose-rank token: a 4–6 character string of digits. -/
def rankTokenOk (r : List Char) : Prop :=
  (∀ c ∈ r, c.isDigit = true) ∧ 4 ≤ r.length ∧ r.length ≤ 6

/-- A well-formed percentile token: a non-empty string of digits and
dots. -/
def percTokenOk (p : List Char) : Prop :=
  p ≠ [] ∧ ∀ c ∈ p, percChar c = true

/-- Every token stored in a pairing slot is well formed. -/
def slotOk (e : PairSlot) : Prop :=
  (∀ r, e.1 = some r → rankTokenOk r) ∧ (∀ p, e.2 = some p → percTokenOk p)

/-- The numeric fields of a cutoff row originate from well-formed
tokens. -/
def rowFromTokens (row : CutoffRow) : Prop :=
  (∃ t, rankTokenOk t ∧ natOfDigits t = row.rank) ∧
  (∃ p, percTokenOk p ∧ ratOfToken p = row.percentage)

/-- A pairing slot that carries a rank (i.e. is not an orphan slot).
The persistence variant's `stage_data` equals the read-only variant's
`stage_data` with the orphan slots filtered out. -/
def hasRank (e : PairSlot) : Bool :=
  e.1.isSome

/-! # Theorems -/

set_option maxRecDepth 4000 in
/-- C1: the spec scenario claims the document parses to one college,
one branch and exactly the two cutoff entries `(I, GOPENS, 500, 90.1)`
and `(I, GSCS, 600, 85.3)`.  The code disagrees: the category row
`GOPENS GSCS` has only two codes, below the three-code minimum of the
category scan, so the branch's cutoff table comes out empty (the
3-digit rank tokens `500`/`600` would not match `\b\d{4,6}\b` either);
the claimed result is therefore not what the parser returns. -/
theorem C1_counterexample :
    parse_pdf c1text ≠
      PdfResult.success
        [⟨("01002").data, ("Govt College, City").data,
          [⟨("0100219110").data, ("Civil Engineering").data,
            ("Government Autonomous").data,
            [⟨("I").data, ("GOPENS").data, 500, mkRat 901 10⟩,
             ⟨("I").data, ("GSCS").data, 600, mkRat 853 10⟩]⟩], 1⟩]
        1 1 2 := by
  decide

set_option maxRecDepth 4000 in
/-- C1 (amended): the scenario document parses successfully to one
college `01002 - Govt College, City` with one branch `0100219110 -
Civil Engineering` of status `Government Autonomous`, but with an
empty cutoff list: the category row has fewer than the required three
codes, and the rank tokens have fewer than four digits. -/
theorem C1_amended :
    parse_pdf c1text =
      PdfResult.success
        [⟨("01002").data, ("Govt College, City").data,
          [⟨("0100219110").data, ("Civil Engineering").data,
            ("Government Autonomous").data, []⟩], 1⟩]
        1 1 0 := by
  decide

/-- C2: on the synthetic block of spec P3 the code returns no cutoff
entries at all, not the three claimed ones: the category pattern
`\b[A-Z]{4,6}\b` cannot match `GNT3S` (it contains a digit), although
the source's own comment names `GNT3S` as an intended example, so only
two category codes are found and the three-code minimum fails. -/
theorem C2_code_bug_eval :
    findCats (("GOPENS GSCS GNT3S").data) = [("GOPENS").data, ("GSCS").data] ∧
    extract_cutoff_data c2section = [] ∧
    parse_cutoff_data c2section = [] := by
  decide

/-- C3: the claim says the pairer processes loose ranks and percentiles
in encounter order.  It does not: within one line all ranks are
collected before any percentile is bound, so for the line
`1234 (56.7) 8901` the percentile is bound to `8901` (the most recently
*collected* rank), not to `1234` as encounter-order processing (the
second list) would give. -/
theorem C3_counterexample :
    collectLineP [] (("1234 (56.7) 8901").data) =
      [(some (("1234").data), none), (some (("8901").data), some (("56.7").data))] ∧
    collectLineP [] (("1234 (56.7) 8901").data) ≠
      [(some (("1234").data), some (("56.7").data)), (some (("8901").data), none)] := by
  decide

/-- C4: the two parsing variants are not extensionally equal: on a
section whose stage block contains a line with the literal substring
`Stage`, `extract_cutoff_data` stops collecting at that line while
`parse_cutoff_data` continues past it. -/
theorem C4_counterexample :
    extract_cutoff_data c4section =
      [⟨("I").data, ("GOPENS").data, 1234, mkRat 500 10⟩] ∧
    parse_cutoff_data c4section =
      [⟨("I").data, ("GOPENS").data, 1234, mkRat 500 10⟩,
       ⟨("I").data, ("GSCS").data, 2000, mkRat 600 10⟩] ∧
    extract_cutoff_data c4section ≠ parse_cutoff_data c4section := by
  decide

/-- C5: a parenthesized 4–6 digit integer *does* contribute a
loose-rank entry, contrary to the claim: the rank pattern
`\b(\d{4,6})\b` does not exclude parentheses, so the token `(5000)` is
collected both as rank `5000` and as percentile `5000.0`, and yields a
cutoff entry. -/
theorem C5_counterexample :
    findRanks (("(5000)").data) = [("5000").data] ∧
    extract_cutoff_data c5section =
      [⟨("I").data, ("GOPENS").data, 5000, mkRat 5000 1⟩] := by
  decide

/-- C7: a stage block with four complete pairs and three category codes
yields two entries, not three: the pair carrying the malformed
percentage token `1.2.3` fails `float` conversion and is skipped while
still consuming its category slot. -/
theorem C7_counterexample :
    (completeOf (collectLoopP (splitLines c7section) 2 2 2 [])).length = 4 ∧
    (findCats (("GOPENS GSCS GNTS").data)).length = 3 ∧
    (extract_cutoff_data c7section).length = 2 := by
  decide

/-- C8: an emitted cutoff entry can violate the claimed invariant in
both fields: the standalone token `0000` gives rank `0` (not positive)
and the percentile token `150.5` gives a value above 100. -/
theorem C8_counterexample :
    extract_cutoff_data c8section =
      [⟨("I").data, ("GOPENS").data, 0, mkRat 1505 10⟩] ∧
    ¬ (0 < (0 : ℕ)) ∧ ¬ (mkRat 1505 10 ≤ (100 : ℚ)) := by
  decide

/-- C9: an emitted rank can be below 1000: the 4-digit token `0500`
passes the `\b\d{4,6}\b` filter and converts to rank `500`. -/
theorem C9_counterexample :
    extract_cutoff_data c9section =
      [⟨("I").data, ("GOPENS").data, 500, mkRat 900 10⟩] ∧
    ¬ (1000 ≤ 500) := by
  decide

/-! ## Characterization of the backward pairing scan -/

/-- The backward scan finds no slot exactly when every slot's
percentage field is already filled. -/
theorem bindPercAux_eq_none_iff (l : List PairSlot) (p : List Char) :
    bindPercAux l p = none ↔ ∀ e ∈ l, e.2 ≠ none := by
  induction l with
  | nil => simp [bindPercAux]
  | cons e rest ih =>
    cases h : bindPercAux rest p with
    | some r' =>
      simp only [bindPercAux, h]
      constructor
      · intro hc; cases hc
      · intro hall
        have hn : bindPercAux rest p = none :=
          ih.mpr (fun x hx => hall x (List.mem_cons_of_mem _ hx))
        rw [h] at hn; cases hn
    | none =>
      have hrest : ∀ e ∈ rest, e.2 ≠ none := ih.mp h
      simp only [bindPercAux, h]
      by_cases he : e.2 = none
      · simp only [he, if_pos rfl]
        constructor
        · intro hc; cases hc
        · intro hall; exact absurd he (hall e (List.mem_cons_self e rest))
      · simp only [if_neg he]
        constructor
        · intro _ x hx
          rcases List.mem_cons.mp hx with rfl | hx'
          · exact he
          · exact hrest x hx'
        · intro _; trivial

/-- When slot `k` is the most recently added slot with an empty
percentage field, the backward scan binds the percentage there and
leaves everything else unchanged. -/
theorem bindPercAux_bind_last (l : List PairSlot) (p : List Char) :
    ∀ (k : Nat) (hk : k < l.length), (l.get ⟨k, hk⟩).2 = none →
      (∀ (m : Nat) (hm : m < l.length), k < m → (l.get ⟨m, hm⟩).2 ≠ none) →
      bindPercAux l p = some (l.set k ((l.get ⟨k, hk⟩).1, some p)) := by
  induction l with
  | nil => intro k hk; cases hk
  | cons e rest ih =>
    intro k hk hempty hlater
    cases k with
    | zero =>
      have hrest : ∀ x ∈ rest, x.2 ≠ none := by
        intro x hx
        rcases List.mem_iff_get.mp hx with ⟨m', hm'⟩
        have h2 := hlater (m'.1 + 1) (by simp [Nat.succ_lt_succ m'.2]) (Nat.succ_pos _)
        have h3 : (rest.get m').2 ≠ none := by simpa using h2
        rw [hm'] at h3; exact h3
      have hn : bindPercAux rest p = none := (bindPercAux_eq_none_iff rest p).mpr hrest
      simp only [bindPercAux, hn]
      simp only [List.get] at hempty
      simp [hempty, List.set]
    | succ k' =>
      have hk' : k' < rest.length := by simpa using Nat.lt_of_succ_lt_succ hk
      have hempty' : (rest.get ⟨k', hk'⟩).2 = none := by simpa [List.get] using hempty
      have hlater' : ∀ (m : Nat) (hm : m < rest.length), k' < m →
          (rest.get ⟨m, hm⟩).2 ≠ none := by
        intro m hm hlt
        have := hlater (m + 1) (by simpa using Nat.succ_lt_succ hm) (Nat.succ_lt_succ hlt)
        simpa [List.get] using this
      have hrec := ih k' hk' hempty' hlater'
      simp only [bindPercAux, hrec]
      simp [List.set, List.get]

/-- C3 (amended): the pairer's percentage step behaves as specified on
the `stage_data` order (all of a line's ranks precede its percentiles,
cf. the counterexample): a percentage is bound to the most recently
added slot whose percentage field is still empty; when every slot is
already paired, the read-only parser (`percStepP`) appends an orphan
`(None, percentage)` slot while the persistence variant (`percStepM`)
discards the percentage. -/
theorem C3_amended :
    (∀ (l : List PairSlot) (p : List Char), (∀ e ∈ l, e.2 ≠ none) →
       percStepP l p = l ++ [(none, some p)] ∧ percStepM l p = l) ∧
    (∀ (l : List PairSlot) (p : List Char) (k : Nat) (hk : k < l.length),
       (l.get ⟨k, hk⟩).2 = none →
       (∀ (m : Nat) (hm : m < l.length), k < m → (l.get ⟨m, hm⟩).2 ≠ none) →
       percStepP l p = l.set k ((l.get ⟨k, hk⟩).1, some p) ∧
       percStepM l p = l.set k ((l.get ⟨k, hk⟩).1, some p)) := by
  constructor
  · intro l p hall
    have hn : bindPercAux l p = none := (bindPercAux_eq_none_iff l p).mpr hall
    exact ⟨by simp [percStepP, hn], by simp [percStepM, hn]⟩
  · intro l p k hk hempty hlater
    have hb := bindPercAux_bind_last l p k hk hempty hlater
    exact ⟨by simp [percStepP, hb], by simp [percStepM, hb]⟩

/-! ## Equivalence of the two variants up to the orphan and `Stage`
differences (towards C4) -/

/-- The backward scan commutes with removing orphan slots, provided
every orphan slot is already paired (which the collector maintains:
orphans are created with their percentage present). -/
theorem bindPercAux_filter (l : List PairSlot) (p : List Char)
    (hinv : ∀ e ∈ l, e.1 = none → e.2 ≠ none) :
    bindPercAux (l.filter hasRank) p =
      (bindPercAux l p).map (List.filter hasRank) := by
  induction l with
  | nil => simp [bindPercAux]
  | cons e rest ih =>
    have hinvr : ∀ x ∈ rest, x.1 = none → x.2 ≠ none :=
      fun x hx => hinv x (List.mem_cons_of_mem _ hx)
    have ih' := ih hinvr
    by_cases hq : hasRank e = true
    · rw [List.filter_cons_of_pos hq]
      cases h : bindPercAux rest p with
      | some r' =>
        rw [h, Option.map_some'] at ih'
        simp only [bindPercAux, ih', h, Option.map_some']
        rw [List.filter_cons_of_pos hq]
      | none =>
        rw [h, Option.map_none'] at ih'
        simp only [bindPercAux, ih', h]
        by_cases he : e.2 = none
        · simp only [if_pos he, Option.map_some']
          have hq' : hasRank (e.1, some p) = true := hq
          rw [List.filter_cons_of_pos hq']
        · simp [if_neg he]
    · have he1 : e.1 = none := by
        simp only [hasRank] at hq
        exact Option.not_isSome_iff_eq_none.mp (by simpa using hq)
      have he2 : e.2 ≠ none := hinv e (List.mem_cons_self e rest) he1
      rw [List.filter_cons_of_neg (by simp [hq])]
      cases h : bindPercAux rest p with
      | some r' =>
        rw [h, Option.map_some'] at ih'
        simp only [bindPercAux, ih', h, Option.map_some']
        rw [List.filter_cons_of_neg (by simp [hq])]
      | none =>
        rw [h, Option.map_none'] at ih'
        simp only [bindPercAux, ih', h, if_neg he2, Option.map_none']

/-- The backward scan preserves the orphan invariant: it only fills a
percentage field. -/
theorem bindPercAux_inv (l : List PairSlot) (p : List Char) :
    ∀ l', bindPercAux l p = some l' →
      (∀ e ∈ l, e.1 = none → e.2 ≠ none) →
      ∀ e ∈ l', e.1 = none → e.2 ≠ none := by
  induction l with
  | nil => intro l' h; cases h
  | cons e rest ih =>
    intro l' h hinv
    have hinvr : ∀ x ∈ rest, x.1 = none → x.2 ≠ none :=
      fun x hx => hinv x (List.mem_cons_of_mem _ hx)
    cases hr : bindPercAux rest p with
    | some r' =>
      rw [bindPercAux, hr] at h
      injection h with h; subst h
      intro x hx
      rcases List.mem_cons.mp hx with rfl | hx'
      · exact hinv x (List.mem_cons_self x rest)
      · exact ih r' hr hinvr x hx'
    | none =>
      rw [bindPercAux, hr] at h
      by_cases he : e.2 = none
      · rw [if_pos he] at h
        injection h with h; subst h
        intro x hx
        rcases List.mem_cons.mp hx with rfl | hx'
        · intro _; simp
        · exact hinvr x hx'
      · rw [if_neg he] at h; cases h

/-- One percentage step: filtering orphan slots out of the read-only
parser's state gives the persistence variant's state, and the orphan
invariant is preserved. -/
theorem percStep_filter (l : List PairSlot) (p : List Char)
    (hinv : ∀ e ∈ l, e.1 = none → e.2 ≠ none) :
    percStepM (l.filter hasRank) p = (percStepP l p).filter hasRank ∧
    (∀ e ∈ percStepP l p, e.1 = none → e.2 ≠ none) := by
  have hf := bindPercAux_filter l p hinv
  cases h : bindPercAux l p with
  | some l' =>
    rw [h, Option.map_some'] at hf
    refine ⟨?_, ?_⟩
    · simp only [percStepP, percStepM, h, hf]
    · simpa [percStepP, h] using bindPercAux_inv l p l' h hinv
  | none =>
    rw [h, Option.map_none'] at hf
    refine ⟨?_, ?_⟩
    · simp only [percStepP, percStepM, h, hf, List.filter_append]
      simp [hasRank]
    · intro x hx
      simp only [percStepP, h] at hx
      rcases List.mem_append.mp hx with hx' | hx'
      · exact hinv x hx'
      · simp only [List.mem_singleton] at hx'
        subst hx'; intro _; simp

/-- Folding the percentage steps over a line's percentages keeps the
two states related by orphan filtering. -/
theorem foldPercs_filter (ps : List (List Char)) :
    ∀ l, (∀ e ∈ l, e.1 = none → e.2 ≠ none) →
      ps.foldl percStepM (l.filter hasRank) = (ps.foldl percStepP l).filter hasRank ∧
      (∀ e ∈ ps.foldl percStepP l, e.1 = none → e.2 ≠ none) := by
  induction ps with
  | nil => intro l h; exact ⟨rfl, h⟩
  | cons p ps ih =>
    intro l h
    have hstep := percStep_filter l p h
    have hrec := ih (percStepP l p) hstep.2
    refine ⟨?_, ?_⟩
    · rw [List.foldl_cons, List.foldl_cons, hstep.1]; exact hrec.1
    · simpa [List.foldl_cons] using hrec.2

/-- Collecting one line keeps the two states related by orphan
filtering. -/
theorem collectLine_filter (sd : List PairSlot) (nl : List Char)
    (hinv : ∀ e ∈ sd, e.1 = none → e.2 ≠ none) :
    collectLineM (sd.filter hasRank) nl = (collectLineP sd nl).filter hasRank ∧
    (∀ e ∈ collectLineP sd nl, e.1 = none → e.2 ≠ none) := by
  have hranks : (rankSlots nl).filter hasRank = rankSlots nl := by
    apply List.filter_eq_self.mpr
    intro e he
    rcases List.mem_map.mp he with ⟨r, _, rfl⟩
    rfl
  have happ : (sd ++ rankSlots nl).filter hasRank = sd.filter hasRank ++ rankSlots nl := by
    rw [List.filter_append, hranks]
  have hinv' : ∀ e ∈ sd ++ rankSlots nl, e.1 = none → e.2 ≠ none := by
    intro e he
    rcases List.mem_append.mp he with he' | he'
    · exact hinv e he'
    · rcases List.mem_map.mp he' with ⟨r, _, rfl⟩
      intro hc; cases hc
  have := foldPercs_filter (findPercs nl) (sd ++ rankSlots nl) hinv'
  exact ⟨by rw [collectLineM, collectLineP, ← happ]; exact this.1, this.2⟩

/-- On a line without the substring `Stage` the two boundary tests
agree. -/
theorem boundaryP_eq_boundaryM (nl : List Char) (later : Bool)
    (h : containsL nl (("Stage").data) = false) :
    boundaryP nl later = boundaryM nl later := by
  simp [boundaryP, boundaryM, h]

/-- The two look-ahead collection loops stay related by orphan
filtering as long as no scanned line contains the substring `Stage`. -/
theorem collectLoop_filter (lines : List (List Char)) (i : Nat)
    (hst : ∀ l ∈ lines, containsL (pyStrip l) (("Stage").data) = false) :
    ∀ (fuel j : Nat) (sd : List PairSlot),
      (∀ e ∈ sd, e.1 = none → e.2 ≠ none) →
      collectLoopM lines i fuel j (sd.filter hasRank) =
        (collectLoopP lines i fuel j sd).filter hasRank ∧
      (∀ e ∈ collectLoopP lines i fuel j sd, e.1 = none → e.2 ≠ none) := by
  intro fuel
  induction fuel with
  | zero => intro j sd h; exact ⟨rfl, h⟩
  | succ fuel ih =>
    intro j sd h
    by_cases hempty : pyStrip (lines.getD j []) = []
    · simpa only [collectLoopP, collectLoopM, hempty, if_pos rfl] using ih (j + 1) sd h
    · have hnost : containsL (pyStrip (lines.getD j [])) (("Stage").data) = false := by
        by_cases hj : j < lines.length
        · have hmem : lines.getD j [] ∈ lines := by
            rw [List.getD_eq_getElem lines [] hj]
            exact List.getElem_mem hj
          exact hst _ hmem
        · rw [List.getD_eq_default lines [] (Nat.le_of_not_lt hj)] at hempty
          exact absurd rfl hempty
      have hb := boundaryP_eq_boundaryM (pyStrip (lines.getD j []))
        (decide (i < j)) hnost
      by_cases hbd : boundaryM (pyStrip (lines.getD j [])) (decide (i < j)) = true
      · have hP : collectLoopP lines i (fuel + 1) j sd = sd := by
          simp only [collectLoopP, if_neg hempty, hb]
          rw [if_pos hbd]
        have hM : collectLoopM lines i (fuel + 1) j (sd.filter hasRank) =
            sd.filter hasRank := by
          simp only [collectLoopM, if_neg hempty]
          rw [if_pos hbd]
        rw [hP, hM]
        exact ⟨rfl, h⟩
      · have hline := collectLine_filter sd (pyStrip (lines.getD j [])) h
        have hrec := ih (j + 1) (collectLineP sd (pyStrip (lines.getD j []))) hline.2
        have hP : collectLoopP lines i (fuel + 1) j sd =
            collectLoopP lines i fuel (j + 1)
              (collectLineP sd (pyStrip (lines.getD j []))) := by
          simp only [collectLoopP, if_neg hempty, hb]
          rw [if_neg hbd]
        have hM : collectLoopM lines i (fuel + 1) j (sd.filter hasRank) =
            collectLoopM lines i fuel (j + 1)
              (collectLineM (sd.filter hasRank) (pyStrip (lines.getD j []))) := by
          simp only [collectLoopM, if_neg hempty]
          rw [if_neg hbd]
        rw [hP, hM, hline.1]
        exact hrec

/-- Orphan slots never produce complete pairs, so the completeness
filter ignores them. -/
theorem completeOf_filter (l : List PairSlot) :
    completeOf (l.filter hasRank) = completeOf l := by
  induction l with
  | nil => rfl
  | cons e rest ih =>
    obtain ⟨e1, e2⟩ := e
    by_cases hq : hasRank (e1, e2) = true
    · rw [List.filter_cons_of_pos hq]
      simp only [completeOf, List.filterMap_cons] at ih ⊢
      rw [ih]
    · have he1 : e1 = none := by
        simp only [hasRank] at hq
        exact Option.not_isSome_iff_eq_none.mp (by simpa using hq)
      subst he1
      rw [List.filter_cons_of_neg (by simp [hq])]
      simp only [completeOf, List.filterMap_cons] at ih ⊢
      exact ih

/-- The two outer stage loops produce the same rows when no line of the
section contains the substring `Stage`. -/
theorem stageLoop_eq (lines : List (List Char)) (cats : List (List Char))
    (hst : ∀ l ∈ lines, containsL (pyStrip l) (("Stage").data) = false) :
    ∀ (fuel i : Nat) (acc : List CutoffRow),
      stageLoopP lines cats fuel i acc = stageLoopM lines cats fuel i acc := by
  intro fuel
  induction fuel with
  | zero => intro i acc; rfl
  | succ fuel ih =>
    intro i acc
    by_cases hempty : pyStrip (lines.getD i []) = []
    · simp only [stageLoopP, stageLoopM, hempty, if_pos rfl]
      exact ih (i + 1) acc
    · cases hs : stageSearch (pyStrip (lines.getD i [])) with
      | none =>
        simp only [stageLoopP, stageLoopM, if_neg hempty, hs]
        exact ih (i + 1) acc
      | some stg =>
        have hcol := collectLoop_filter lines i hst
          (min (i + 20) lines.length - i) i [] (by intro e he; cases he)
        simp only [stageLoopP, stageLoopM, if_neg hempty, hs]
        have hsdM : collectLoopM lines i (min (i + 20) lines.length - i) i [] =
            (collectLoopP lines i (min (i + 20) lines.length - i) i []).filter hasRank := by
          simpa using hcol.1
        rw [hsdM, completeOf_filter]
        have hif :
            (if collectLoopP lines i (min (i + 20) lines.length - i) i [] = [] then []
             else assignCore stg cats
               (completeOf (collectLoopP lines i (min (i + 20) lines.length - i) i []))) =
            assignCore stg cats
              (completeOf (collectLoopP lines i (min (i + 20) lines.length - i) i [])) := by
          by_cases hnil : collectLoopP lines i (min (i + 20) lines.length - i) i [] = []
          · rw [if_pos hnil, hnil]; rfl
          · rw [if_neg hnil]
        rw [hif]
        exact ih (i + 1) _

/-- C4 (amended): on every branch-section text none of whose lines
contains the literal substring `Stage`, the read-only and persistence
parsing variants return the same ordered list of cutoff entries.  (The
two remaining differences are unobservable there: orphan percentage
slots are appended by one variant and dropped by the other, but both
are removed by the completeness filter.) -/
theorem C4_amended (sectionText : List Char)
    (h : ∀ l ∈ splitLines sectionText,
      containsL (pyStrip l) (("Stage").data) = false) :
    extract_cutoff_data sectionText = parse_cutoff_data sectionText := by
  cases hsl : stateLevelIdx (splitLines sectionText) with
  | none => simp [extract_cutoff_data, parse_cutoff_data, hsl]
  | some sl =>
    cases hcs : catScanLoop (splitLines sectionText)
        (min (sl + 5) (splitLines sectionText).length - (sl + 1)) (sl + 1) with
    | none => simp [extract_cutoff_data, parse_cutoff_data, hsl, hcs]
    | some ic =>
      obtain ⟨ci, cats⟩ := ic
      simp only [extract_cutoff_data, parse_cutoff_data, hsl, hcs]
      exact stageLoop_eq (splitLines sectionText) cats h
        ((splitLines sectionText).length - (ci + 1)) (ci + 1) []

/-- Witness for C4 (amended): the two variants agree on the concrete
`Stage`-free section `c2section`. -/
theorem C4_witness :
    extract_cutoff_data c2section = parse_cutoff_data c2section :=
  C4_amended c2section (by decide)

/-- Witness for C3 (amended) at a concrete fully-paired state: the
read-only parser appends the orphan, the persistence variant does not. -/
theorem C3_witness :
    percStepP [(some (("1234").data), some (("50.0").data))] (("60.0").data) =
      [(some (("1234").data), some (("50.0").data)), (none, some (("60.0").data))] ∧
    percStepM [(some (("1234").data), some (("50.0").data))] (("60.0").data) =
      [(some (("1234").data), some (("50.0").data))] := by
  have h := C3_amended.1 [(some (("1234").data), some (("50.0").data))]
    (("60.0").data) (by decide)
  exact ⟨h.1, h.2⟩

/-! ## Overall parse success (C6) -/

/-- The college-header scan finds nothing exactly when no line matches
the college pattern. -/
theorem collegeScan_eq_nil (ls : List (List Char)) :
    ∀ i, collegeScan i ls = [] ↔ ∀ l ∈ ls, collegeMatch (pyStrip l) = none := by
  induction ls with
  | nil => intro i; simp [collegeScan]
  | cons l rest ih =>
    intro i
    cases hm : collegeMatch (pyStrip l) with
    | some cn => simp [collegeScan, hm]
    | none => simp [collegeScan, hm, ih]

/-- Every college-header line yields a college record, so the college
list is empty exactly when the scan is. -/
theorem collegesBuild_eq_nil (lines : List (List Char))
    (cl : List (Nat × List Char × List Char)) :
    collegesBuild lines cl = [] ↔ cl = [] := by
  cases cl with
  | nil => simp [collegesBuild]
  | cons a t =>
    obtain ⟨i, code, name⟩ := a
    simp [collegesBuild]

/-- C6: the parse succeeds exactly when the text is non-empty and some
line matches the college-header pattern, and every failure carries a
non-empty error string (and, by construction of `PdfResult`, no partial
colleges list).  Success does not depend on any cutoff being found. -/
theorem C6_success_iff (text : List Char) :
    ((∃ cs t1 t2 t3, parse_pdf text = PdfResult.success cs t1 t2 t3) ↔
      (text ≠ [] ∧ ∃ l ∈ splitLines text, (collegeMatch (pyStrip l)).isSome = true)) ∧
    (∀ e, parse_pdf text = PdfResult.failure e → e ≠ []) := by
  by_cases ht : text = []
  · subst ht
    refine ⟨⟨?_, ?_⟩, ?_⟩
    · rintro ⟨cs, t1, t2, t3, hc⟩
      simp [parse_pdf] at hc
    · rintro ⟨hne, _⟩
      exact absurd rfl hne
    · intro e he
      simp only [parse_pdf, if_pos rfl] at he
      injection he with he
      subst he
      decide
  · have hscan := collegeScan_eq_nil (splitLines text) 0
    by_cases hcol : extract_colleges text = []
    · have hnone : ∀ l ∈ splitLines text, collegeMatch (pyStrip l) = none := by
        have := (collegesBuild_eq_nil (splitLines text)
          (collegeScan 0 (splitLines text))).mp (by simpa [extract_colleges] using hcol)
        exact hscan.mp this
      refine ⟨⟨?_, ?_⟩, ?_⟩
      · rintro ⟨cs, t1, t2, t3, hc⟩
        simp [parse_pdf, if_neg ht, hcol] at hc
      · rintro ⟨_, l, hl, hsome⟩
        rw [hnone l hl] at hsome
        cases hsome
      · intro e he
        simp only [parse_pdf, if_neg ht, hcol, if_pos rfl] at he
        injection he with he
        subst he
        decide
    · have hex : ∃ l ∈ splitLines text, (collegeMatch (pyStrip l)).isSome = true := by
        by_contra hno
        push_neg at hno
        apply hcol
        simp only [extract_colleges]
        apply (collegesBuild_eq_nil (splitLines text)
          (collegeScan 0 (splitLines text))).mpr
        apply hscan.mpr
        intro l hl
        have := hno l hl
        cases hm : collegeMatch (pyStrip l) with
        | none => rfl
        | some cn => rw [hm] at this; cases this rfl
      refine ⟨⟨?_, ?_⟩, ?_⟩
      · intro _
        exact ⟨ht, hex⟩
      · intro _
        cases hp : parse_pdf text with
        | failure e => simp [parse_pdf, if_neg ht, hcol] at hp
        | success cs t1 t2 t3 => exact ⟨cs, t1, t2, t3, rfl⟩
      · intro e he
        simp [parse_pdf, if_neg ht, hcol] at he

/-- Witness for C6 at the empty document: the parse fails with the
extraction-failure error, which is non-empty. -/
theorem C6_witness :
    ("Could not extract text from PDF").data ≠ [] :=
  (C6_success_iff []).2 (("Could not extract text from PDF").data) (by decide)

/-! ## Category assignment under overflow (C7) -/

/-- Zipping truncates the left list to the length of the right one. -/
theorem zipTakeLeft {α β : Type} (l1 : List α) (l2 : List β) :
    l1.zip l2 = (l1.take l2.length).zip l2 := by
  induction l1 generalizing l2 with
  | nil => simp
  | cons a t ih =>
    cases l2 with
    | nil => simp
    | cons b u => simp [ih u]

/-- A `filterMap` whose function always succeeds is a `map`. -/
theorem filterMapEqMap {α β : Type} (f : α → Option β) (g : α → β) (l : List α)
    (h : ∀ x ∈ l, f x = some (g x)) : l.filterMap f = l.map g := by
  induction l with
  | nil => rfl
  | cons a t ih =>
    rw [List.filterMap_cons, h a (List.mem_cons_self a t), List.map_cons,
      ih (fun x hx => h x (List.mem_cons_of_mem a hx))]

/-- C7 (amended): when a stage block has more complete pairs than
category codes and the first `len(categories)` pairs all convert
numerically, exactly `len(categories)` entries are produced — the
first `len(categories)` pairs zipped positionally with the codes — and
the excess pairs are dropped; no exception is raised (the assignment is
a total function).  A pair among the first `len(categories)` whose
percentage fails `float` conversion is skipped while still consuming
its category slot (see the counterexample), which is the only amendment
to the claim. -/
theorem C7_amended (stg : List Char) (cats : List (List Char))
    (complete : List (List Char × List Char))
    (hlen : cats.length < complete.length)
    (hok : ∀ rp ∈ complete.take cats.length,
      pyIntOk rp.1 = true ∧ pyFloatOk rp.2 = true) :
    assignCore stg cats complete =
      ((complete.take cats.length).zip cats).map
        (fun rc => ⟨stg, rc.2, natOfDigits rc.1.1, ratOfToken rc.1.2⟩) ∧
    (assignCore stg cats complete).length = cats.length := by
  have hz : complete.zip cats = (complete.take cats.length).zip cats := by
    have := zipTakeLeft complete cats
    exact this
  have hmap : assignCore stg cats complete =
      ((complete.take cats.length).zip cats).map
        (fun rc => ⟨stg, rc.2, natOfDigits rc.1.1, ratOfToken rc.1.2⟩) := by
    rw [assignCore, hz]
    apply filterMapEqMap
    intro rc hrc
    have hmem := (List.of_mem_zip hrc).1
    have hro := hok rc.1 hmem
    rw [if_pos (by rw [hro.1, hro.2]; rfl)]
  refine ⟨hmap, ?_⟩
  rw [hmap, List.length_map, List.length_zip, List.length_take]
  omega

/-- Witness for C7 (amended): one category, two convertible complete
pairs, exactly one entry. -/
theorem C7_witness :
    (assignCore (("I").data) [("AAAA").data]
      [((("1234").data), (("50.0").data)), ((("5678").data), (("60.0").data))]).length = 1 :=
  (C7_amended (("I").data) [("AAAA").data]
    [((("1234").data), (("50.0").data)), ((("5678").data), (("60.0").data))]
    (by decide) (by decide)).2

/-! ## Characterization of the word-boundary scanners (C5, C10) -/

/-- Splitting `w ++ b` at the first character of `b` that fails the
class: if all of `w` satisfies the class and the head of `b` does not,
the take/drop pair recovers `w` and `b`. -/
theorem takeWhileAppend (p : Char → Bool) (w b : List Char)
    (hw : ∀ c ∈ w, p c = true) (hb : ∀ c, b.head? = some c → p c = false) :
    (w ++ b).takeWhile p = w ∧ (w ++ b).dropWhile p = b := by
  induction w with
  | nil =>
    cases b with
    | nil => exact ⟨rfl, rfl⟩
    | cons c bt =>
      have := hb c rfl
      simp [List.takeWhile_cons, List.dropWhile_cons, this]
  | cons c wt ih =>
    have hc := hw c (List.mem_cons_self c wt)
    have ih' := ih (fun x hx => hw x (List.mem_cons_of_mem c hx))
    simp [List.takeWhile_cons, List.dropWhile_cons, hc, ih'.1, ih'.2]

/-- Soundness of the `\b<cls>{lo,hi}\b` scanner: every returned token
is a non-empty class run of admissible length occurring in the line
delimited by word boundaries.  The condition on `a` and `prev`
expresses the boundary before the token. -/
theorem reFindAux_sound (cls : Char → Bool) (lo : Nat) (hi : Option Nat) :
    ∀ (prev : Option Char) (s w : List Char), w ∈ reFindAux cls lo hi prev s →
      w ≠ [] ∧ (∀ c ∈ w, cls c = true) ∧ lo ≤ w.length ∧ hiOk hi w.length = true ∧
      ∃ a b, s = a ++ w ++ b ∧
        (a = [] → prevOk prev = true) ∧
        (∀ c, a.getLast? = some c → wordChar c = false) ∧
        (∀ c, b.head? = some c → wordChar c = false) := by
  intro prev s
  induction s generalizing prev with
  | nil => intro w hw; cases hw
  | cons c rest ih =>
    intro w hw
    have lift : w ∈ reFindAux cls lo hi (some c) rest →
        w ≠ [] ∧ (∀ x ∈ w, cls x = true) ∧ lo ≤ w.length ∧ hiOk hi w.length = true ∧
        ∃ a b, c :: rest = a ++ w ++ b ∧
          (a = [] → prevOk prev = true) ∧
          (∀ x, a.getLast? = some x → wordChar x = false) ∧
          (∀ x, b.head? = some x → wordChar x = false) := by
      intro hw'
      obtain ⟨hne, hall, hlo, hhi, a', b, hs, hpr, hlast, hhead⟩ := ih (some c) w hw'
      refine ⟨hne, hall, hlo, hhi, c :: a', b, by rw [hs]; rfl, ?_, ?_, hhead⟩
      · intro hc; cases hc
      · intro x hx
        cases a' with
        | nil =>
          simp only [List.getLast?_singleton, Option.some.injEq] at hx
          subst hx
          have := hpr rfl
          simpa [prevOk] using this
        | cons a0 a1 =>
          rw [List.getLast?_cons_cons] at hx
          exact hlast x hx
    by_cases hg : (prevOk prev && cls c) = true
    · simp only [reFindAux, hg, if_true] at hw
      by_cases hchk : (lo ≤ ((c :: rest).takeWhile cls).length &&
          hiOk hi ((c :: rest).takeWhile cls).length &&
          afterOk ((c :: rest).dropWhile cls)) = true
      · rw [if_pos hchk] at hw
        rcases List.mem_cons.mp hw with rfl | hw'
        · simp only [Bool.and_eq_true, decide_eq_true_eq] at hchk hg
          refine ⟨?_, ?_, hchk.1.1, hchk.1.2,
            [], (c :: rest).dropWhile cls, ?_, ?_, ?_, ?_⟩
          · simp [List.takeWhile_cons, hg.2]
          · intro x hx; exact List.mem_takeWhile_imp hx
          · rw [List.nil_append, List.takeWhile_append_dropWhile cls (c :: rest)]
          · intro _; exact hg.1
          · intro x hx; cases hx
          · intro x hx
            have h2 := hchk.2
            simp only [afterOk, hx] at h2
            simpa using h2
        · exact lift hw'
      · rw [if_neg hchk] at hw
        exact lift hw
    · simp only [reFindAux, hg, if_false] at hw
      exact lift hw

/-- Completeness of the scanner for classes of word characters: a
class run delimited by word boundaries is always found. -/
theorem reFindAux_ne_nil (cls : Char → Bool) (lo : Nat) (hi : Option Nat)
    (hword : ∀ c, cls c = true → wordChar c = true) :
    ∀ (a : List Char) (prev : Option Char) (w b : List Char),
      w ≠ [] → (∀ c ∈ w, cls c = true) → lo ≤ w.length → hiOk hi w.length = true →
      (a = [] → prevOk prev = true) →
      (∀ c, a.getLast? = some c → wordChar c = false) →
      (∀ c, b.head? = some c → wordChar c = false) →
      reFindAux cls lo hi prev (a ++ w ++ b) ≠ [] := by
  intro a
  induction a with
  | nil =>
    intro prev w b hne hall hlo hhi hprev hlast hhead
    obtain ⟨wc, wt, rfl⟩ : ∃ wc wt, w = wc :: wt := by
      cases w with
      | nil => exact absurd rfl hne
      | cons wc wt => exact ⟨wc, wt, rfl⟩
    have hclsb : ∀ c, b.head? = some c → cls c = false := by
      intro c hc
      cases hcl : cls c with
      | false => rfl
      | true =>
        have h1 := hhead c hc
        have h2 := hword c hcl
        rw [h1] at h2
        cases h2
    have hsplit := takeWhileAppend cls (wc :: wt) b hall hclsb
    have hg : (prevOk prev && cls wc) = true := by
      rw [hprev rfl, hall wc (List.mem_cons_self wc wt)]; rfl
    have hafter : afterOk b = true := by
      cases hb : b.head? with
      | none => simp [afterOk, hb]
      | some c => simp [afterOk, hb, hhead c hb]
    simp only [List.cons_append] at hsplit
    simp only [List.nil_append, List.cons_append]
    simp only [reFindAux, hg, if_true, hsplit.1, hsplit.2]
    split
    · exact List.cons_ne_nil _ _
    · next hcond =>
      apply absurd ?_ hcond
      rw [Bool.and_eq_true, Bool.and_eq_true]
      exact ⟨⟨decide_eq_true hlo, hhi⟩, hafter⟩
  | cons a0 a1 ih =>
    intro prev w b hne hall hlo hhi hprev hlast hhead
    have hrec := ih (some a0) w b hne hall hlo hhi
      (fun h1 => by
        subst h1
        have := hlast a0 (by simp)
        simp [prevOk, this])
      (fun c hc => by
        cases a1 with
        | nil => cases hc
        | cons x y =>
          exact hlast c (by rw [List.getLast?_cons_cons]; exact hc))
      hhead
    simp only [List.cons_append]
    simp only [reFindAux]
    by_cases hg : (prevOk prev && cls a0) = true
    · rw [if_pos hg]
      split
      · exact List.cons_ne_nil _ _
      · exact hrec
    · rw [if_neg hg]
      exact hrec

/-- C10: the stage detector fires on a line if and only if the line
contains a standalone word (delimited by non-word characters or the
line ends) composed solely of the letters I, V, X — anywhere in the
line, with no `Stage` keyword required and no roman-numeral validation
— and the found word is such a standalone word; concretely, a block
whose stage line is `IIXX` produces entries with stage `IIXX`. -/
theorem C10_stage_token :
    (∀ line : List Char,
       ((stageSearch line).isSome = true ↔
         ∃ a w b, line = a ++ w ++ b ∧ w ≠ [] ∧ (∀ c ∈ w, ivxChar c = true) ∧
           (∀ c, a.getLast? = some c → wordChar c = false) ∧
           (∀ c, b.head? = some c → wordChar c = false))) ∧
    (∀ line w, stageSearch line = some w →
       w ≠ [] ∧ (∀ c ∈ w, ivxChar c = true) ∧
       ∃ a b, line = a ++ w ++ b ∧
         (∀ c, a.getLast? = some c → wordChar c = false) ∧
         (∀ c, b.head? = some c → wordChar c = false)) ∧
    extract_cutoff_data c10section =
      [⟨("IIXX").data, ("GOPENS").data, 1234, mkRat 567 10⟩] := by
  have hword : ∀ c, ivxChar c = true → wordChar c = true := by
    intro c hc
    simp only [ivxChar, Bool.or_eq_true, decide_eq_true_eq] at hc
    rcases hc with (rfl | rfl) | rfl <;> decide
  have hsound : ∀ line w, stageSearch line = some w →
      w ≠ [] ∧ (∀ c ∈ w, ivxChar c = true) ∧
      ∃ a b, line = a ++ w ++ b ∧
        (∀ c, a.getLast? = some c → wordChar c = false) ∧
        (∀ c, b.head? = some c → wordChar c = false) := by
    intro line w hw
    have hmem : w ∈ reFindAux ivxChar 1 none none line := by
      cases hl : reFindAux ivxChar 1 none none line with
      | nil => rw [stageSearch, hl] at hw; cases hw
      | cons x t =>
        rw [stageSearch, hl] at hw
        injection hw with hw
        rw [← hw]
        exact List.mem_cons_self x t
    obtain ⟨hne, hall, _, _, a, b, hsplit, _, hlast, hhead⟩ :=
      reFindAux_sound ivxChar 1 none none line w hmem
    exact ⟨hne, hall, a, b, hsplit, hlast, hhead⟩
  refine ⟨?_, hsound, by decide⟩
  intro line
  constructor
  · intro hs
    cases hw : stageSearch line with
    | none => rw [hw] at hs; cases hs
    | some w =>
      obtain ⟨hne, hall, a, b, hsplit, hlast, hhead⟩ := hsound line w hw
      exact ⟨a, w, b, hsplit, hne, hall, hlast, hhead⟩
  · rintro ⟨a, w, b, rfl, hne, hall, hlast, hhead⟩
    have hnil := reFindAux_ne_nil ivxChar 1 none hword a none w b hne hall
      (List.length_pos.mpr hne) rfl (fun _ => rfl) hlast hhead
    rw [stageSearch]
    cases h2 : reFindAux ivxChar 1 none none (a ++ w ++ b) with
    | nil => exact absurd h2 hnil
    | cons x t => rfl

/-- Witness for C10: the line `A IIXX` contains the standalone word
`IIXX`, so the stage detector fires on it. -/
theorem C10_witness :
    (stageSearch (("A IIXX").data)).isSome = true :=
  (C10_stage_token.1 (("A IIXX").data)).mpr
    ⟨("A ").data, ("IIXX").data, [], by decide, by decide, by decide,
      by decide, by decide⟩

/-- C5 (amended): every loose-rank token collected from a line is a
standalone 4–6 digit run delimited by word boundaries — but enclosure
in parentheses does not disqualify it: the parenthesized token `(5000)`
contributes the digits `5000` both as a loose rank and as a
percentile. -/
theorem C5_amended :
    (∀ (line w : List Char), w ∈ findRanks line →
       w ≠ [] ∧ (∀ c ∈ w, c.isDigit = true) ∧ 4 ≤ w.length ∧ w.length ≤ 6 ∧
       ∃ a b, line = a ++ w ++ b ∧
         (∀ c, a.getLast? = some c → wordChar c = false) ∧
         (∀ c, b.head? = some c → wordChar c = false)) ∧
    findRanks (("(5000)").data) = [("5000").data] ∧
    findPercs (("(5000)").data) = [("5000").data] := by
  refine ⟨?_, by decide, by decide⟩
  intro line w hw
  obtain ⟨hne, hall, hlo, hhi, a, b, hsplit, _, hlast, hhead⟩ :=
    reFindAux_sound Char.isDigit 4 (some 6) none line w hw
  refine ⟨hne, hall, hlo, ?_, a, b, hsplit, hlast, hhead⟩
  simpa [hiOk] using hhi

/-- Witness for C5 (amended) at the token scanned from `(5000)`. -/
theorem C5_witness :
    4 ≤ (("5000").data).length ∧ (("5000").data).length ≤ 6 :=
  ⟨(C5_amended.1 (("(5000)").data) (("5000").data) (by decide)).2.2.1,
   (C5_amended.1 (("(5000)").data) (("5000").data) (by decide)).2.2.2.1⟩

/-! ## Provenance of the numeric fields (C8, C9)

Every emitted rank comes from a `\b\d{4,6}\b` token and every emitted
percentage from a `\(([\d.]+)\)` token; the invariant is threaded
through the collectors of both variants. -/

/-- Every rank token is a standalone 4–6 digit run. -/
theorem findRanks_tokenOk (line w : List Char) (h : w ∈ findRanks line) :
    rankTokenOk w := by
  obtain ⟨_, hall, hlo, hhi, _⟩ :=
    reFindAux_sound Char.isDigit 4 (some 6) none line w h
  exact ⟨hall, hlo, by simpa [hiOk] using hhi⟩

/-- Every percentage token is a non-empty run of digits and dots. -/
theorem findPercs_tokenOk : ∀ (line p : List Char), p ∈ findPercs line →
    percTokenOk p := by
  intro line
  induction line with
  | nil => intro p hp; cases hp
  | cons c rest ih =>
    intro p hp
    by_cases hc : c = '('
    · simp only [findPercs, if_pos hc] at hp
      split at hp
      · next hcond =>
        rcases List.mem_cons.mp hp with rfl | hp'
        · refine ⟨?_, ?_⟩
          · intro hnil
            rw [Bool.and_eq_true] at hcond
            rw [hnil] at hcond
            simp at hcond
          · intro x hx; exact List.mem_takeWhile_imp hx
        · exact ih p hp'
      · exact ih p hp
    · simp only [findPercs, if_neg hc] at hp
      exact ih p hp

/-- The backward scan preserves slot well-formedness: it only writes
the (well-formed) percentage token into a slot. -/
theorem bindPercAux_slotOk (p0 : List Char) (hp0 : percTokenOk p0) :
    ∀ (l l' : List PairSlot), bindPercAux l p0 = some l' →
      (∀ e ∈ l, slotOk e) → ∀ e ∈ l', slotOk e := by
  intro l
  induction l with
  | nil => intro l' h; cases h
  | cons e rest ih =>
    intro l' h hall
    have hallr : ∀ x ∈ rest, slotOk x :=
      fun x hx => hall x (List.mem_cons_of_mem e hx)
    cases hr : bindPercAux rest p0 with
    | some r' =>
      rw [bindPercAux, hr] at h
      injection h with h; subst h
      intro x hx
      rcases List.mem_cons.mp hx with rfl | hx'
      · exact hall x (List.mem_cons_self x rest)
      · exact ih r' hr hallr x hx'
    | none =>
      rw [bindPercAux, hr] at h
      by_cases he : e.2 = none
      · rw [if_pos he] at h
        injection h with h; subst h
        intro x hx
        rcases List.mem_cons.mp hx with rfl | hx'
        · refine ⟨(hall e (List.mem_cons_self e rest)).1, ?_⟩
          intro p hp
          injection hp with hpe
          subst hpe
          exact hp0
        · exact hallr x hx'
      · rw [if_neg he] at h; cases h

/-- Both percentage steps preserve slot well-formedness. -/
theorem percStep_slotOk (l : List PairSlot) (p0 : List Char)
    (hp0 : percTokenOk p0) (hall : ∀ e ∈ l, slotOk e) :
    (∀ e ∈ percStepP l p0, slotOk e) ∧ (∀ e ∈ percStepM l p0, slotOk e) := by
  cases h : bindPercAux l p0 with
  | some l' =>
    have := bindPercAux_slotOk p0 hp0 l l' h hall
    exact ⟨by simpa [percStepP, h] using this, by simpa [percStepM, h] using this⟩
  | none =>
    refine ⟨?_, by simpa [percStepM, h] using hall⟩
    intro x hx
    simp only [percStepP, h] at hx
    rcases List.mem_append.mp hx with hx' | hx'
    · exact hall x hx'
    · simp only [List.mem_singleton] at hx'
      subst hx'
      constructor
      · intro r hr; cases hr
      · intro p hp
        injection hp with hpe
        subst hpe
        exact hp0

/-- Folding all the percentage steps of a line preserves slot
well-formedness, in both variants. -/
theorem foldPercs_slotOk (ps : List (List Char))
    (hps : ∀ p ∈ ps, percTokenOk p) :
    ∀ l, (∀ e ∈ l, slotOk e) →
      (∀ e ∈ ps.foldl percStepP l, slotOk e) ∧
      (∀ e ∈ ps.foldl percStepM l, slotOk e) := by
  induction ps with
  | nil => intro l h; exact ⟨h, h⟩
  | cons p ps ih =>
    intro l h
    have hp0 : percTokenOk p := hps p (List.mem_cons_self p ps)
    have hps' : ∀ x ∈ ps, percTokenOk x :=
      fun x hx => hps x (List.mem_cons_of_mem p hx)
    have hstep := percStep_slotOk l p hp0 h
    exact ⟨by simpa [List.foldl_cons] using (ih hps' (percStepP l p) hstep.1).1,
      by simpa [List.foldl_cons] using (ih hps' (percStepM l p) hstep.2).2⟩

/-- Collecting a line preserves slot well-formedness, in both
variants. -/
theorem collectLine_slotOk (sd : List PairSlot) (nl : List Char)
    (hall : ∀ e ∈ sd, slotOk e) :
    (∀ e ∈ collectLineP sd nl, slotOk e) ∧
    (∀ e ∈ collectLineM sd nl, slotOk e) := by
  have hbase : ∀ e ∈ sd ++ rankSlots nl, slotOk e := by
    intro e he
    rcases List.mem_append.mp he with he' | he'
    · exact hall e he'
    · rcases List.mem_map.mp he' with ⟨r, hr, rfl⟩
      refine ⟨?_, fun p hp => by cases hp⟩
      intro r' hr'
      injection hr' with hre
      subst hre
      exact findRanks_tokenOk nl r hr
  exact foldPercs_slotOk (findPercs nl) (fun p hp => findPercs_tokenOk nl p hp)
    (sd ++ rankSlots nl) hbase

/-- The look-ahead collection loops preserve slot well-formedness. -/
theorem collectLoop_slotOk (lines : List (List Char)) (i : Nat) :
    ∀ (fuel j : Nat) (sd : List PairSlot), (∀ e ∈ sd, slotOk e) →
      (∀ e ∈ collectLoopP lines i fuel j sd, slotOk e) ∧
      (∀ e ∈ collectLoopM lines i fuel j sd, slotOk e) := by
  intro fuel
  induction fuel with
  | zero => intro j sd h; exact ⟨h, h⟩
  | succ fuel ih =>
    intro j sd h
    by_cases hempty : pyStrip (lines.getD j []) = []
    · constructor
      · simpa only [collectLoopP, hempty, if_pos rfl] using (ih (j + 1) sd h).1
      · simpa only [collectLoopM, hempty, if_pos rfl] using (ih (j + 1) sd h).2
    · have hline := collectLine_slotOk sd (pyStrip (lines.getD j [])) h
      constructor
      · by_cases hbd : boundaryP (pyStrip (lines.getD j [])) (decide (i < j)) = true
        · simp only [collectLoopP, if_neg hempty]
          rw [if_pos hbd]
          exact h
        · simp only [collectLoopP, if_neg hempty]
          rw [if_neg hbd]
          exact (ih (j + 1) _ hline.1).1
      · by_cases hbd : boundaryM (pyStrip (lines.getD j [])) (decide (i < j)) = true
        · simp only [collectLoopM, if_neg hempty]
          rw [if_pos hbd]
          exact h
        · simp only [collectLoopM, if_neg hempty]
          rw [if_neg hbd]
          exact (ih (j + 1) _ hline.2).2

/-- Membership in the completeness filter exhibits the originating
slot. -/
theorem completeOf_mem (sd : List PairSlot) (rp : List Char × List Char)
    (h : rp ∈ completeOf sd) : (some rp.1, some rp.2) ∈ sd := by
  simp only [completeOf, List.mem_filterMap] at h
  obtain ⟨e, he, hfe⟩ := h
  obtain ⟨e1, e2⟩ := e
  cases e1 with
  | none => simp at hfe
  | some r' =>
    cases e2 with
    | none => simp at hfe
    | some p' =>
      simp only [] at hfe
      split at hfe
      · injection hfe with hfe
        subst hfe
        exact he
      · cases hfe

/-- Membership in the assignment exhibits the originating complete
pair. -/
theorem assignCore_mem (stg : List Char) (cats : List (List Char))
    (complete : List (List Char × List Char)) (row : CutoffRow)
    (h : row ∈ assignCore stg cats complete) :
    ∃ rp ∈ complete, pyIntOk rp.1 = true ∧ pyFloatOk rp.2 = true ∧
      row.rank = natOfDigits rp.1 ∧ row.percentage = ratOfToken rp.2 := by
  simp only [assignCore, List.mem_filterMap] at h
  obtain ⟨rc, hrc, hsome⟩ := h
  split at hsome
  · next hcond =>
    rw [Bool.and_eq_true] at hcond
    injection hsome with hsome
    subst hsome
    exact ⟨rc.1, (List.of_mem_zip hrc).1, hcond.1, hcond.2, rfl, rfl⟩
  · cases hsome

/-- The stage loops only append rows whose numeric fields come from
well-formed tokens. -/
theorem stageLoopP_rowOk (lines : List (List Char)) (cats : List (List Char)) :
    ∀ (fuel i : Nat) (acc : List CutoffRow),
      (∀ row ∈ acc, rowFromTokens row) →
      ∀ row ∈ stageLoopP lines cats fuel i acc, rowFromTokens row := by
  intro fuel
  induction fuel with
  | zero => intro i acc h; exact h
  | succ fuel ih =>
    intro i acc hacc row hrow
    by_cases hempty : pyStrip (lines.getD i []) = []
    · rw [stageLoopP] at hrow
      rw [if_pos hempty] at hrow
      exact ih (i + 1) acc hacc row hrow
    · cases hs : stageSearch (pyStrip (lines.getD i [])) with
      | none =>
        rw [stageLoopP, if_neg hempty, hs] at hrow
        exact ih (i + 1) acc hacc row hrow
      | some stg =>
        rw [stageLoopP, if_neg hempty, hs] at hrow
        refine ih (i + 1) _ ?_ row hrow
        intro r hr
        rcases List.mem_append.mp hr with hr' | hr'
        · exact hacc r hr'
        · have hr'' : r ∈ assignCore stg cats
              (completeOf (collectLoopP lines i (min (i + 20) lines.length - i) i [])) := by
            by_cases hnil :
                collectLoopP lines i (min (i + 20) lines.length - i) i [] = []
            · rw [if_pos hnil] at hr'; cases hr'
            · rw [if_neg hnil] at hr'; exact hr'
          obtain ⟨rp, hrp, _, _, hrank, hperc⟩ :=
            assignCore_mem stg cats _ r hr''
          have hslot := completeOf_mem _ rp hrp
          have hok := (collectLoop_slotOk lines i
            (min (i + 20) lines.length - i) i [] (by intro e he; cases he)).1
            (some rp.1, some rp.2) hslot
          exact ⟨⟨rp.1, hok.1 rp.1 rfl, hrank.symm⟩,
            ⟨rp.2, hok.2 rp.2 rfl, hperc.symm⟩⟩

/-- Same for the persistence variant's stage loop. -/
theorem stageLoopM_rowOk (lines : List (List Char)) (cats : List (List Char)) :
    ∀ (fuel i : Nat) (acc : List CutoffRow),
      (∀ row ∈ acc, rowFromTokens row) →
      ∀ row ∈ stageLoopM lines cats fuel i acc, rowFromTokens row := by
  intro fuel
  induction fuel with
  | zero => intro i acc h; exact h
  | succ fuel ih =>
    intro i acc hacc row hrow
    by_cases hempty : pyStrip (lines.getD i []) = []
    · rw [stageLoopM] at hrow
      rw [if_pos hempty] at hrow
      exact ih (i + 1) acc hacc row hrow
    · cases hs : stageSearch (pyStrip (lines.getD i [])) with
      | none =>
        rw [stageLoopM, if_neg hempty, hs] at hrow
        exact ih (i + 1) acc hacc row hrow
      | some stg =>
        rw [stageLoopM, if_neg hempty, hs] at hrow
        refine ih (i + 1) _ ?_ row hrow
        intro r hr
        rcases List.mem_append.mp hr with hr' | hr'
        · exact hacc r hr'
        · obtain ⟨rp, hrp, _, _, hrank, hperc⟩ :=
            assignCore_mem stg cats _ r hr'
          have hslot := completeOf_mem _ rp hrp
          have hok := (collectLoop_slotOk lines i
            (min (i + 20) lines.length - i) i [] (by intro e he; cases he)).2
            (some rp.1, some rp.2) hslot
          exact ⟨⟨rp.1, hok.1 rp.1 rfl, hrank.symm⟩,
            ⟨rp.2, hok.2 rp.2 rfl, hperc.symm⟩⟩

/-- Every row of either variant's output has token provenance. -/
theorem extract_rowOk (sectionText : List Char) (row : CutoffRow)
    (h : row ∈ extract_cutoff_data sectionText ∨
      row ∈ parse_cutoff_data sectionText) :
    rowFromTokens row := by
  rcases h with h | h
  · cases hsl : stateLevelIdx (splitLines sectionText) with
    | none => simp only [extract_cutoff_data, hsl] at h; cases h
    | some sl =>
      cases hcs : catScanLoop (splitLines sectionText)
          (min (sl + 5) (splitLines sectionText).length - (sl + 1)) (sl + 1) with
      | none => simp only [extract_cutoff_data, hsl, hcs] at h; cases h
      | some ic =>
        obtain ⟨ci, cats⟩ := ic
        simp only [extract_cutoff_data, hsl, hcs] at h
        exact stageLoopP_rowOk (splitLines sectionText) cats
          ((splitLines sectionText).length - (ci + 1)) (ci + 1) []
          (by intro r hr; cases hr) row h
  · cases hsl : stateLevelIdx (splitLines sectionText) with
    | none => simp only [parse_cutoff_data, hsl] at h; cases h
    | some sl =>
      cases hcs : catScanLoop (splitLines sectionText)
          (min (sl + 5) (splitLines sectionText).length - (sl + 1)) (sl + 1) with
      | none => simp only [parse_cutoff_data, hsl, hcs] at h; cases h
      | some ic =>
        obtain ⟨ci, cats⟩ := ic
        simp only [parse_cutoff_data, hsl, hcs] at h
        exact stageLoopM_rowOk (splitLines sectionText) cats
          ((splitLines sectionText).length - (ci + 1)) (ci + 1) []
          (by intro r hr; cases hr) row h

/-- The value of a digit string is below `10 ^ length`. -/
theorem natOfDigits_lt : ∀ (t : List Char) (n : Nat),
    (∀ c ∈ t, c.isDigit = true) →
    t.foldl (fun n c => 10 * n + (c.toNat - 48)) n < (n + 1) * 10 ^ t.length := by
  intro t
  induction t with
  | nil => intro n _; simp
  | cons c t ih =>
    intro n hall
    have hd : c.toNat - 48 ≤ 9 := by
      have hc := hall c (List.mem_cons_self c t)
      simp [Char.isDigit] at hc
      have h2 : c.toNat ≤ 57 := hc.2
      omega
    have step := ih (10 * n + (c.toNat - 48))
      (fun x hx => hall x (List.mem_cons_of_mem c hx))
    calc (c :: t).foldl (fun n c => 10 * n + (c.toNat - 48)) n
        = t.foldl (fun n c => 10 * n + (c.toNat - 48)) (10 * n + (c.toNat - 48)) := rfl
      _ < (10 * n + (c.toNat - 48) + 1) * 10 ^ t.length := step
      _ ≤ ((n + 1) * 10) * 10 ^ t.length := by
          apply Nat.mul_le_mul_right
          omega
      _ = (n + 1) * 10 ^ (c :: t).length := by
          rw [List.length_cons, Nat.pow_succ]
          ring

/-- A rank built from a 4–6 digit token is at most 999999. -/
theorem rankTokenOk_le (t : List Char) (h : rankTokenOk t) :
    natOfDigits t ≤ 999999 := by
  obtain ⟨hall, _, hlen⟩ := h
  have := natOfDigits_lt t 0 hall
  have hpow : 10 ^ t.length ≤ 10 ^ 6 := Nat.pow_le_pow_right (by omega) hlen
  simp only [natOfDigits]
  omega

/-- Percentile values are non-negative rationals. -/
theorem ratOfToken_nonneg (p : List Char) : 0 ≤ ratOfToken p := by
  rw [ratOfToken, Rat.mkRat_eq_div]
  positivity

/-- C8 (amended): every cutoff entry emitted by either parsing variant
has a rank of at most 999999 (it may be 0, e.g. from the token `0000`)
and a non-negative percentile (values above 100 are possible, e.g.
`150.5`; see the counterexample). -/
theorem C8_amended (sectionText : List Char) (row : CutoffRow)
    (h : row ∈ extract_cutoff_data sectionText ∨
      row ∈ parse_cutoff_data sectionText) :
    row.rank ≤ 999999 ∧ 0 ≤ row.percentage := by
  obtain ⟨⟨t, ht, hrank⟩, ⟨p, _, hperc⟩⟩ := extract_rowOk sectionText row h
  exact ⟨hrank ▸ rankTokenOk_le t ht, hperc ▸ ratOfToken_nonneg p⟩

/-- Witness for C8 (amended) at the concrete entry of `c8section`. -/
theorem C8_witness :
    (0 : Nat) ≤ 999999 ∧ (0 : ℚ) ≤ mkRat 1505 10 :=
  C8_amended c8section ⟨("I").data, ("GOPENS").data, 0, mkRat 1505 10⟩
    (Or.inl (by decide))

/-- C9 (amended): every cutoff entry emitted by either parsing variant
has a rank that is the value of a standalone 4–6-digit token, hence at
most 999999; a rank whose token has fewer than 4 or more than 6 digits
is never emitted, but values below 1000 can still appear through
leading-zero tokens such as `0500` (see the counterexample). -/
theorem C9_amended (sectionText : List Char) (row : CutoffRow)
    (h : row ∈ extract_cutoff_data sectionText ∨
      row ∈ parse_cutoff_data sectionText) :
    row.rank ≤ 999999 ∧
    ∃ t, (∀ c ∈ t, c.isDigit = true) ∧ 4 ≤ t.length ∧ t.length ≤ 6 ∧
      natOfDigits t = row.rank := by
  obtain ⟨⟨t, ht, hrank⟩, _⟩ := extract_rowOk sectionText row h
  exact ⟨hrank ▸ rankTokenOk_le t ht, t, ht.1, ht.2.1, ht.2.2, hrank⟩

/-- Witness for C9 (amended) at the concrete entry of `c9section`. -/
theorem C9_witness :
    (500 : Nat) ≤ 999999 ∧
    ∃ t, (∀ c ∈ t, c.isDigit = true) ∧ 4 ≤ t.length ∧ t.length ≤ 6 ∧
      natOfDigits t = 500 :=
  C9_amended c9section ⟨("I").data, ("GOPENS").data, 500, mkRat 900 10⟩
    (Or.inl (by decide))

end Nsquire
